import Mathlib

/-!
Verification of the terminal session engine of `monadahq/website`
(`src/composables/useTerminal.ts`), as a shallow embedding in Lean 4.

The engine is single-threaded and cooperative: every mutation of the session
state happens in one of the exported operations (`execute`, `setInput`,
`autocompleteSuggestion`, `navigateToPreviousEntry`, `navigateToNextEntry`,
`haltExecution`) or through the command context handed to handlers
(`appendOutput`, `clearMessages`).  We model the session state as a structure
and each operation as a state transformer.  A command handler is modelled by
its total effect: the sequence of context operations it performs, plus a flag
recording whether it threw/rejected.  `execute` is split into the phase up to
and including the dispatch point (`executePre`, mirror of the code before
`await commandDefinition.handler(...)`) and the completion (`finishRun`,
mirror of the `finally` block), so that mid-flight states are expressible.
-/

namespace Terminal

/-- `TerminalMessage.type` in the source: `"input" | "output"`. -/
inductive MessageType where
  | input : MessageType
  | output : MessageType
deriving DecidableEq, Repr

/-- A transcript entry (`TerminalMessage` in the source). -/
structure TerminalMessage where
  type : MessageType
  text : String
  isHtml : Bool
deriving DecidableEq, Repr

/-- One operation a handler can perform through its `CommandContext`. -/
inductive CtxOp where
  | appendOutput (text : String) (isHtml : Bool) : CtxOp
  | clearMessages : CtxOp

/-- `CommandDefinition` in the source.  The handler is modelled by its total
effect: given the argument tokens it performs a sequence of context
operations and either returns normally (`.2 = false`) or throws/rejects
(`.2 = true`). -/
structure CommandDefinition where
  name : String
  description : String
  availableArguments : Option (List String)
  handler : List String → List CtxOp × Bool

/-- The session state owned by one `useTerminal` instance. -/
structure TerminalState where
  inputText : String
  messages : List TerminalMessage
  historyEntries : List String
  historyIndex : Int
  isRunning : Bool
  isHalted : Bool
deriving DecidableEq, Repr

/-- The state right after `useTerminal` is called: all refs at their
initial values. -/
def initialState : TerminalState :=
  { inputText := ""
    messages := []
    historyEntries := []
    historyIndex := -1
    isRunning := false
    isHalted := false }

/-- `appendMessage` in the source: appends one message to the end of the
list. -/
def appendMessage (s : TerminalState) (text : String) (type : MessageType)
    (isHtml : Bool) : TerminalState :=
  { s with messages := s.messages ++ [⟨type, text, isHtml⟩] }

/-- `context.appendOutput`: appends an output-type message; `isHtml`
defaults to `false` at the call sites, so the flag arrives here already
resolved. -/
def ctxAppendOutput (text : String) (isHtml : Bool) (s : TerminalState) :
    TerminalState :=
  appendMessage s text .output isHtml

/-- `context.clearMessages`: replaces the transcript with the empty list. -/
def ctxClearMessages (s : TerminalState) : TerminalState :=
  { s with messages := [] }

/-- Effect of one context operation on the transcript. -/
def applyCtxOp (msgs : List TerminalMessage) : CtxOp → List TerminalMessage
  | .appendOutput text isHtml => msgs ++ [⟨.output, text, isHtml⟩]
  | .clearMessages => []

/-- Effect of a handler run (its sequence of context operations) on the
transcript. -/
def applyCtxOps (msgs : List TerminalMessage) : List CtxOp → List TerminalMessage
  | [] => msgs
  | op :: ops => applyCtxOps (applyCtxOp msgs op) ops

/-- JavaScript `String.prototype.trim()`: strip leading and trailing
whitespace. -/
def jsTrim (s : String) : String :=
  String.mk
    (((s.toList.dropWhile Char.isWhitespace).reverse.dropWhile
        Char.isWhitespace).reverse)

/-- `setInput` in the source. -/
def setInput (input : String) (s : TerminalState) : TerminalState :=
  { s with inputText := input }

/-- JavaScript `historyEntries.value[i] ?? ""`: an out-of-range index reads
`undefined`, which the `??` turns into the empty string. -/
def entryAt (entries : List String) (i : Int) : String :=
  if i < 0 then "" else entries.getD i.toNat ""

/-- `navigateToPreviousEntry` in the source.  The `watchEffect` that
overwrites `inputText` from the history whenever `historyIndex` changes is
folded into the branch that changes the index. -/
def navigateToPreviousEntry (s : TerminalState) : TerminalState :=
  if s.historyIndex < (s.historyEntries.length : Int) - 1 then
    { s with
      historyIndex := s.historyIndex + 1
      inputText := entryAt s.historyEntries (s.historyIndex + 1) }
  else s

/-- `navigateToNextEntry` in the source, with the same `watchEffect`
folding. -/
def navigateToNextEntry (s : TerminalState) : TerminalState :=
  if s.historyIndex > -1 then
    { s with
      historyIndex := s.historyIndex - 1
      inputText := entryAt s.historyEntries (s.historyIndex - 1) }
  else s

/-- `haltExecution` in the source: raise `isHalted`; when idle additionally
echo an empty input-type prompt line. -/
def haltExecution (s : TerminalState) : TerminalState :=
  if s.isRunning then { s with isHalted := true }
  else appendMessage { s with isHalted := true } "" .input false

/-- JavaScript `text.split(" ")` on the list of characters: the string is cut
at every single occurrence of the space character, so `n` consecutive spaces
produce `n - 1` empty segments between them, and the result is never the
empty list. -/
def splitOnSpaceChars : List Char → List (List Char)
  | [] => [[]]
  | c :: cs =>
    if c = ' ' then [] :: splitOnSpaceChars cs
    else
      match splitOnSpaceChars cs with
      | [] => [[c]]
      | t :: ts => (c :: t) :: ts

/-- JavaScript `text.split(" ")`. -/
def jsSplitOnSpace (text : String) : List String :=
  (splitOnSpaceChars text.toList).map (fun cs => String.mk cs)

/-- `parseInput` in the source:
`const [command, ...args] = text.split(" ")`. -/
def parseInput (text : String) : String × List String :=
  match jsSplitOnSpace text with
  | [] => ("", [])
  | command :: args => (command, args)

/-- JavaScript `command.startsWith(text)`: `text` is a prefix of
`command`. -/
def jsStartsWith (s pre : String) : Bool :=
  pre.toList.isPrefixOf s.toList

/-- The suggestion vocabulary before sorting: for each command its bare
name, then `"<name> <argument>"` for every declared argument
(`flatMap` in the source). -/
def vocabulary (commands : List CommandDefinition) : List String :=
  commands.flatMap fun command =>
    command.name ::
      ((command.availableArguments.getD []).map fun argument =>
        command.name ++ " " ++ argument)

/-- One step of the ascending sort used to model JavaScript
`Array.prototype.sort()` on strings. -/
def insertSorted (x : String) : List String → List String
  | [] => [x]
  | y :: ys => if x ≤ y then x :: y :: ys else y :: insertSorted x ys

/-- JavaScript `Array.prototype.sort()` on strings: ascending lexicographic
order. -/
def sortStrings : List String → List String
  | [] => []
  | x :: xs => insertSorted x (sortStrings xs)

/-- The `suggestions` computed value in the source: the vocabulary, sorted
ascending. -/
def suggestionsList (commands : List CommandDefinition) : List String :=
  sortStrings (vocabulary commands)

/-- The `suggestion` computed value in the source: the first element of the
sorted vocabulary that starts with the trimmed input, or `""` when the
trimmed input is empty or nothing matches. -/
def suggestion (commands : List CommandDefinition) (inputText : String) :
    String :=
  let text := jsTrim inputText
  if text = "" then ""
  else
    match (suggestionsList commands).find? (fun command => jsStartsWith command text) with
    | none => ""
    | some command => command

/-- `autocompleteSuggestion` in the source: overwrite the input with the
suggestion when it is non-empty. -/
def autocompleteSuggestion (commands : List CommandDefinition)
    (s : TerminalState) : TerminalState :=
  if suggestion commands s.inputText ≠ "" then
    { s with inputText := suggestion commands s.inputText }
  else s

/-- `execute` in the source, up to and including the dispatch point: the
reentrancy guard, the echo of the trimmed input, the clearing of the input,
the history append and cursor reset, the parse and the lookup.  When a
handler is about to be invoked, the returned state is the state at the
moment of invocation (`isRunning := true`, `isHalted := false`) and the
second component carries the matched definition and the argument tokens;
otherwise the second component is `none` and the state is final. -/
def executePre (commands : List CommandDefinition) (s : TerminalState) :
    TerminalState × Option (CommandDefinition × List String) :=
  if s.isRunning then (s, none)
  else
    let input := jsTrim s.inputText
    let s1 := { appendMessage s input .input false with inputText := "" }
    if input = "" then (s1, none)
    else
      let s2 := { s1 with
        historyEntries :=
          if s1.historyEntries.head? = some input then s1.historyEntries
          else input :: s1.historyEntries
        historyIndex := -1 }
      let p := parseInput input
      match commands.find? (fun cd => cd.name = p.1) with
      | none =>
          (appendMessage s2 ("sh: command not found: " ++ p.1) .output false,
           none)
      | some cd => ({ s2 with isRunning := true, isHalted := false }, some (cd, p.2))

/-- The `finally` block of `execute`: release the running flag. -/
def finishRun (s : TerminalState) : TerminalState :=
  { s with isRunning := false }

/-- Result of a whole `execute` call: the final state, the handler
invocation that took place (command name and argument tokens), if any, and
whether the handler threw/rejected (the fault propagates to the caller, but
only after the `finally` block released `isRunning`). -/
structure ExecResult where
  state : TerminalState
  invoked : Option (String × List String)
  threw : Bool

/-- `execute` in the source, run to completion: the pre-dispatch phase, then
the handler's effect on the transcript, then the `finally` release. -/
def execute (commands : List CommandDefinition) (s : TerminalState) :
    ExecResult :=
  match executePre commands s with
  | (s1, none) => ⟨s1, none, false⟩
  | (s1, some (cd, args)) =>
      let r := cd.handler args
      ⟨finishRun { s1 with messages := applyCtxOps s1.messages r.1 },
       some (cd.name, args), r.2⟩

/-- The session states reachable from `initialState` under any interleaving
of the exported operations and of context operations performed by in-flight
handlers.  `execPre` reaches the state at a handler's entry, `ctxAppend` and
`ctxClear` model the handler's (or the component's) context calls, and
`finish` models the `finally` release, so every state visible during an
asynchronous run is covered; `exec` covers a whole call at once. -/
inductive Reachable : TerminalState → Prop where
  | init : Reachable initialState
  | set (t : String) {s : TerminalState} : Reachable s → Reachable (setInput t s)
  | autocomplete (commands : List CommandDefinition) {s : TerminalState} :
      Reachable s → Reachable (autocompleteSuggestion commands s)
  | prev {s : TerminalState} : Reachable s → Reachable (navigateToPreviousEntry s)
  | next {s : TerminalState} : Reachable s → Reachable (navigateToNextEntry s)
  | halt {s : TerminalState} : Reachable s → Reachable (haltExecution s)
  | exec (commands : List CommandDefinition) {s : TerminalState} :
      Reachable s → Reachable (execute commands s).state
  | execPre (commands : List CommandDefinition) {s : TerminalState} :
      Reachable s → Reachable (executePre commands s).1
  | ctxAppend (text : String) (isHtml : Bool) {s : TerminalState} :
      Reachable s → Reachable (ctxAppendOutput text isHtml s)
  | ctxClear {s : TerminalState} : Reachable s → Reachable (ctxClearMessages s)
  | finish {s : TerminalState} : Reachable s → Reachable (finishRun s)

/-! Concrete inputs used by witnesses and counterexamples. -/

/-- A session state with a command in flight. -/
def demoRunningState : TerminalState :=
  { initialState with isRunning := true, inputText := "ls" }

/-- A command whose handler appends one line and then throws. -/
def throwingCommand : CommandDefinition :=
  { name := "boom"
    description := "always fails"
    availableArguments := none
    handler := fun _ => ([CtxOp.appendOutput "fail" false], true) }

/-- An idle state about to dispatch `throwingCommand`. -/
def demoDispatchState : TerminalState :=
  { initialState with inputText := "boom now" }

/-- An idle state whose input matches no command. -/
def demoUnknownState : TerminalState :=
  { initialState with inputText := "zzz" }

/-- An idle state with a non-empty input. -/
def demoResetState : TerminalState :=
  { initialState with inputText := "hello" }

/-- A state reached by submitting "x", browsing back to it, and then
erasing the input: the user is mid-browse (`historyIndex = 0`) with an
empty input buffer. -/
def midBrowseState : TerminalState :=
  setInput "" (navigateToPreviousEntry (execute [] (setInput "x" initialState)).state)

/-- A command with a no-op handler. -/
def catCommand : CommandDefinition :=
  { name := "cat"
    description := "concatenate"
    availableArguments := none
    handler := fun _ => ([], false) }

/-- An idle state whose input contains a doubled space between tokens. -/
def demoDoubleSpaceState : TerminalState :=
  { initialState with inputText := "cat  x" }

/-- Joining character segments back with single spaces: the inverse of
`splitOnSpaceChars`, used to characterise it. -/
def joinSpace : List (List Char) → List Char
  | [] => []
  | [t] => t
  | t :: ts => t ++ ' ' :: joinSpace ts

/-- The state after submitting "x" once from a fresh session: the history
holds exactly ["x"]. -/
def demoRepeatState : TerminalState :=
  (execute [] (setInput "x" initialState)).state

/-- Two commands, one of them with a declared argument. -/
def demoCommands : List CommandDefinition :=
  [ { name := "dfg", description := "d", availableArguments := none
      handler := fun _ => ([], false) },
    { name := "abc", description := "a", availableArguments := some ["x"]
      handler := fun _ => ([], false) } ]

end Terminal

namespace Terminal

/-! Helper lemmas. -/

/-- A whole `execute` call leaves `historyEntries` and `historyIndex` as the
pre-dispatch phase left them: the handler's context operations and the
`finally` release only touch `messages` and `isRunning`. -/
theorem execute_state_history (commands : List CommandDefinition)
    (s : TerminalState) :
    (execute commands s).state.historyEntries = (executePre commands s).1.historyEntries
    ∧ (execute commands s).state.historyIndex = (executePre commands s).1.historyIndex := by
  unfold execute
  rcases h : executePre commands s with ⟨s1, o⟩
  rcases o with _ | ⟨cd, args⟩ <;> simp [finishRun]

/-- C1: while `isRunning` is true, `execute` is a complete no-op: the state
is returned unchanged, no handler is invoked and nothing is thrown. -/
theorem execute_single_flight (commands : List CommandDefinition)
    (s : TerminalState) (h : s.isRunning = true) :
    execute commands s = ⟨s, none, false⟩ := by
  simp [execute, executePre, h]

/-- C1 witness: a concrete in-flight state on which `execute` changes
nothing. -/
theorem execute_single_flight_witness :
    demoRunningState.isRunning = true
    ∧ execute [] demoRunningState = ⟨demoRunningState, none, false⟩ :=
  ⟨rfl, execute_single_flight [] demoRunningState rfl⟩

/-- C9: `haltExecution` always raises `isHalted`; when idle it additionally
appends exactly one empty input-type message, and when running it changes
nothing but `isHalted`. -/
theorem haltExecution_contract (s : TerminalState) :
    (haltExecution s).isHalted = true
    ∧ (s.isRunning = false →
        haltExecution s =
          { s with isHalted := true
                   messages := s.messages ++ [⟨.input, "", false⟩] })
    ∧ (s.isRunning = true → haltExecution s = { s with isHalted := true }) := by
  by_cases h : s.isRunning <;>
    simp [haltExecution, appendMessage, h]

/-- C9 witness: halting the idle initial state raises the flag and appends
a single blank prompt line. -/
theorem haltExecution_contract_witness :
    (haltExecution initialState).isHalted = true
    ∧ haltExecution initialState =
        { initialState with isHalted := true, messages := [⟨.input, "", false⟩] } := by
  refine ⟨(haltExecution_contract initialState).1, ?_⟩
  have h := (haltExecution_contract initialState).2.1 rfl
  simpa [initialState] using h

/-- C10: history navigation touches only `historyIndex` and (through the
index-change side effect) `inputText`; the transcript, the history list and
both flags are untouched by either direction. -/
theorem navigation_frame (s : TerminalState) :
    ((navigateToPreviousEntry s).historyEntries = s.historyEntries
      ∧ (navigateToPreviousEntry s).messages = s.messages
      ∧ (navigateToPreviousEntry s).isRunning = s.isRunning
      ∧ (navigateToPreviousEntry s).isHalted = s.isHalted)
    ∧ ((navigateToNextEntry s).historyEntries = s.historyEntries
      ∧ (navigateToNextEntry s).messages = s.messages
      ∧ (navigateToNextEntry s).isRunning = s.isRunning
      ∧ (navigateToNextEntry s).isHalted = s.isHalted) := by
  unfold navigateToPreviousEntry navigateToNextEntry
  constructor <;> split <;> simp

/-- C4: on an idle state whose non-empty trimmed input matches no command,
`execute` appends the echo of the input followed by exactly one output-type
"command not found" message, invokes no handler, and leaves `isRunning`
false. -/
theorem execute_unknown_command (commands : List CommandDefinition)
    (s : TerminalState) (hrun : s.isRunning = false)
    (hin : jsTrim s.inputText ≠ "")
    (hfind : commands.find? (fun cd => cd.name = (parseInput (jsTrim s.inputText)).1) = none) :
    (execute commands s).state.messages =
      s.messages ++
        [⟨.input, jsTrim s.inputText, false⟩,
         ⟨.output, "sh: command not found: " ++ (parseInput (jsTrim s.inputText)).1, false⟩]
    ∧ (execute commands s).invoked = none
    ∧ (execute commands s).state.isRunning = false
    ∧ (executePre commands s).1.isRunning = false := by
  simp [execute, executePre, hrun, hin, hfind, appendMessage]

/-- C4 witness: submitting "zzz" with no registered commands produces the
"sh: command not found: zzz" transcript line and never dispatches. -/
theorem execute_unknown_command_witness :
    (execute [] demoUnknownState).state.messages =
      [⟨.input, "zzz", false⟩, ⟨.output, "sh: command not found: zzz", false⟩]
    ∧ (execute [] demoUnknownState).invoked = none
    ∧ (execute [] demoUnknownState).state.isRunning = false := by
  have h := execute_unknown_command [] demoUnknownState rfl (by decide) rfl
  exact ⟨by simpa [demoUnknownState, initialState] using h.1, h.2.1, h.2.2.1⟩

/-- C2: whenever dispatch is reached, the state at the moment the handler is
invoked has `isRunning = true`, the handler receives exactly the parsed
argument tokens, and the final state is the `finally`-released
(`isRunning = false`) version of the post-handler state — an expression
independent of whether the handler threw, while the thrown flag itself is
propagated to the caller. -/
theorem execute_guaranteed_release (commands : List CommandDefinition)
    (s : TerminalState) (cd : CommandDefinition)
    (hrun : s.isRunning = false) (hin : jsTrim s.inputText ≠ "")
    (hfind : commands.find? (fun d => d.name = (parseInput (jsTrim s.inputText)).1) = some cd) :
    (executePre commands s).1.isRunning = true
    ∧ (executePre commands s).2 = some (cd, (parseInput (jsTrim s.inputText)).2)
    ∧ (execute commands s).state =
        finishRun { (executePre commands s).1 with
          messages := applyCtxOps (executePre commands s).1.messages
              (cd.handler (parseInput (jsTrim s.inputText)).2).1 }
    ∧ (execute commands s).threw = (cd.handler (parseInput (jsTrim s.inputText)).2).2
    ∧ (execute commands s).state.isRunning = false := by
  refine ⟨?_, ?_, ?_, ?_, ?_⟩ <;>
    simp [execute, executePre, hrun, hin, hfind, finishRun]

/-- C2 witness: a handler that throws is still released — after the call
`isRunning` is false and the fault is propagated. -/
theorem execute_guaranteed_release_witness :
    (executePre [throwingCommand] demoDispatchState).1.isRunning = true
    ∧ (execute [throwingCommand] demoDispatchState).state.isRunning = false
    ∧ (execute [throwingCommand] demoDispatchState).threw = true := by
  have h := execute_guaranteed_release [throwingCommand] demoDispatchState
    throwingCommand rfl (by decide) rfl
  exact ⟨h.1, h.2.2.2.2, h.2.2.2.1.trans rfl⟩

/-- C7 counterexample: from the initial state, submit "x", browse back to
it, erase the input, and submit again: the call is not dropped by the
single-flight guard (the state is idle), yet after it completes
`historyIndex` is 0, not -1. -/
theorem execute_cursor_reset_cex :
    midBrowseState.isRunning = false
    ∧ (execute [] midBrowseState).state.historyIndex = 0
    ∧ ¬ (execute [] midBrowseState).state.historyIndex = -1 := by
  refine ⟨rfl, by decide, by decide⟩

/-- C7 amended: for every call to `execute` that is not dropped by the
single-flight guard, if the trimmed input is non-empty then after the call
`historyIndex` is -1 (whether or not an entry was appended, and even
mid-browse); if the trimmed input is empty, `historyIndex` is left
unchanged. -/
theorem execute_cursor_reset (commands : List CommandDefinition)
    (s : TerminalState) (hrun : s.isRunning = false) :
    (jsTrim s.inputText ≠ "" → (execute commands s).state.historyIndex = -1)
    ∧ (jsTrim s.inputText = "" →
        (execute commands s).state.historyIndex = s.historyIndex) := by
  rw [(execute_state_history commands s).2]
  constructor <;> intro hin
  · rcases hfind : commands.find? (fun cd => cd.name = (parseInput (jsTrim s.inputText)).1) with _ | cd <;>
      simp [executePre, hrun, hin, hfind, appendMessage]
  · simp [executePre, hrun, hin, appendMessage]

/-- C7 amended witness: submitting "hello" from a fresh idle state resets
the cursor to -1. -/
theorem execute_cursor_reset_witness :
    (execute [] demoResetState).state.historyIndex = -1 :=
  (execute_cursor_reset [] demoResetState rfl).1 (by decide)

/-- On an idle state, the pre-dispatch phase prepends the trimmed input to
the history exactly when it is non-empty and differs from the entry at
index 0. -/
theorem executePre_entries (commands : List CommandDefinition)
    (s : TerminalState) (hrun : s.isRunning = false) :
    (executePre commands s).1.historyEntries =
      if jsTrim s.inputText ≠ "" ∧ s.historyEntries.head? ≠ some (jsTrim s.inputText)
      then jsTrim s.inputText :: s.historyEntries
      else s.historyEntries := by
  by_cases hin : jsTrim s.inputText = ""
  · simp [executePre, hrun, hin, appendMessage]
  · by_cases hhead : s.historyEntries.head? = some (jsTrim s.inputText) <;>
      rcases hfind : commands.find? (fun cd => cd.name = (parseInput (jsTrim s.inputText)).1) with _ | cd <;>
        simp [executePre, hrun, hin, hhead, hfind, appendMessage]

/-- The pre-dispatch phase either leaves history and cursor untouched, or
resets the cursor to -1 while leaving the history list the same or
prepending an entry that differs from the previous head. -/
theorem executePre_history_cases (commands : List CommandDefinition)
    (s : TerminalState) :
    ((executePre commands s).1.historyIndex = s.historyIndex
      ∧ (executePre commands s).1.historyEntries = s.historyEntries)
    ∨ ((executePre commands s).1.historyIndex = -1
      ∧ ((executePre commands s).1.historyEntries = s.historyEntries
        ∨ ((executePre commands s).1.historyEntries = jsTrim s.inputText :: s.historyEntries
          ∧ s.historyEntries.head? ≠ some (jsTrim s.inputText)))) := by
  cases hrun : s.isRunning with
  | true => left; simp [executePre, hrun]
  | false =>
    by_cases hin : jsTrim s.inputText = ""
    · left; simp [executePre, hrun, hin, appendMessage]
    · right
      constructor
      · rcases hfind : commands.find? (fun cd => cd.name = (parseInput (jsTrim s.inputText)).1) with _ | cd <;>
          simp [executePre, hrun, hin, hfind, appendMessage]
      · rw [executePre_entries commands s hrun]
        by_cases hhead : s.historyEntries.head? = some (jsTrim s.inputText)
        · left; simp [hhead]
        · right; simp [hin, hhead]

/-- In every reachable session state, no two adjacent history entries are
identical. -/
theorem reachable_entries_chain {u : TerminalState} (h : Reachable u) :
    u.historyEntries.Chain' (· ≠ ·) := by
  induction h with
  | init => simp [initialState]
  | set t _ ih => simpa [setInput] using ih
  | autocomplete commands _ ih =>
    unfold autocompleteSuggestion
    split <;> simpa using ih
  | prev _ ih =>
    unfold navigateToPreviousEntry
    split <;> simpa using ih
  | next _ ih =>
    unfold navigateToNextEntry
    split <;> simpa using ih
  | halt _ ih =>
    unfold haltExecution
    split <;> simpa [appendMessage] using ih
  | ctxAppend text isHtml _ ih => simpa [ctxAppendOutput, appendMessage] using ih
  | ctxClear _ ih => simpa [ctxClearMessages] using ih
  | finish _ ih => simpa [finishRun] using ih
  | execPre commands _ ih =>
    rename_i s _
    rcases executePre_history_cases commands s with ⟨_, hE⟩ | ⟨_, hE | ⟨hE, hne⟩⟩ <;>
      rw [hE]
    · exact ih
    · exact ih
    · refine List.chain'_cons'.mpr ⟨fun y hy heq => ?_, ih⟩
      exact hne (by simpa [← heq] using hy)
  | exec commands _ ih =>
    rename_i s _
    rw [(execute_state_history commands s).1]
    rcases executePre_history_cases commands s with ⟨_, hE⟩ | ⟨_, hE | ⟨hE, hne⟩⟩ <;>
      rw [hE]
    · exact ih
    · exact ih
    · refine List.chain'_cons'.mpr ⟨fun y hy heq => ?_, ih⟩
      exact hne (by simpa [← heq] using hy)

/-- C5: a non-dropped `execute` call prepends the trimmed input to the
history exactly when it is non-empty and differs from the entry at index 0;
consequently in every reachable state no two adjacent history entries are
identical. -/
theorem history_append_rule (commands : List CommandDefinition)
    (s : TerminalState) :
    (s.isRunning = false →
      (execute commands s).state.historyEntries =
        if jsTrim s.inputText ≠ "" ∧ s.historyEntries.head? ≠ some (jsTrim s.inputText)
        then jsTrim s.inputText :: s.historyEntries
        else s.historyEntries)
    ∧ (Reachable s → s.historyEntries.Chain' (· ≠ ·)) :=
  ⟨fun hrun => ((execute_state_history commands s).1).trans
      (executePre_entries commands s hrun),
   fun h => reachable_entries_chain h⟩

/-- C5 witness: submitting "x" twice in a row leaves a history of length 1
containing "x", and the adjacent-distinct invariant holds there. -/
theorem history_append_rule_witness :
    demoRepeatState.historyEntries = ["x"]
    ∧ (execute [] (setInput "x" demoRepeatState)).state.historyEntries = ["x"]
    ∧ (setInput "x" demoRepeatState).historyEntries.Chain' (· ≠ ·) := by
  have h := history_append_rule [] (setInput "x" demoRepeatState)
  refine ⟨by decide, (h.1 rfl).trans (by decide), ?_⟩
  exact h.2 (Reachable.set "x" (Reachable.exec [] (Reachable.set "x" Reachable.init)))

/-- In every reachable session state the history cursor stays within
`[-1, historyEntries.length - 1]`. -/
theorem reachable_index_bounds {u : TerminalState} (h : Reachable u) :
    -1 ≤ u.historyIndex
    ∧ u.historyIndex ≤ (u.historyEntries.length : Int) - 1 := by
  induction h with
  | init => simp [initialState]
  | set t _ ih => simpa [setInput] using ih
  | autocomplete commands _ ih =>
    unfold autocompleteSuggestion
    split <;> simpa using ih
  | prev _ ih =>
    unfold navigateToPreviousEntry
    split
    · next hc => simp only [TerminalState.mk.injEq] at *; constructor <;> omega
    · exact ih
  | next _ ih =>
    unfold navigateToNextEntry
    split
    · next hc => simp only [TerminalState.mk.injEq] at *; constructor <;> omega
    · exact ih
  | halt _ ih =>
    unfold haltExecution
    split <;> simpa [appendMessage] using ih
  | ctxAppend text isHtml _ ih => simpa [ctxAppendOutput, appendMessage] using ih
  | ctxClear _ ih => simpa [ctxClearMessages] using ih
  | finish _ ih => simpa [finishRun] using ih
  | execPre commands _ ih =>
    rename_i s _
    rcases executePre_history_cases commands s with ⟨hI, hE⟩ | ⟨hI, _⟩
    · rw [hI, hE]; exact ih
    · rw [hI]; constructor <;> omega
  | exec commands _ ih =>
    rename_i s _
    rw [(execute_state_history commands s).1, (execute_state_history commands s).2]
    rcases executePre_history_cases commands s with ⟨hI, hE⟩ | ⟨hI, _⟩
    · rw [hI, hE]; exact ih
    · rw [hI]; constructor <;> omega

/-- C6: `navigateToPreviousEntry` increments the cursor exactly when it is
below `length - 1` and otherwise leaves it unchanged; `navigateToNextEntry`
decrements it exactly when it is above -1 and otherwise leaves it
unchanged; and in every reachable state the cursor stays within
`[-1, length - 1]`. -/
theorem navigation_clamp (s : TerminalState) :
    ((navigateToPreviousEntry s).historyIndex =
      if s.historyIndex < (s.historyEntries.length : Int) - 1
      then s.historyIndex + 1 else s.historyIndex)
    ∧ ((navigateToNextEntry s).historyIndex =
      if -1 < s.historyIndex
      then s.historyIndex - 1 else s.historyIndex)
    ∧ (Reachable s →
        -1 ≤ s.historyIndex
        ∧ s.historyIndex ≤ (s.historyEntries.length : Int) - 1) := by
  refine ⟨?_, ?_, fun h => reachable_index_bounds h⟩
  · unfold navigateToPreviousEntry
    split <;> rename_i hc <;> simp [hc]
  · unfold navigateToNextEntry
    split <;> rename_i hc <;> simp_all [gt_iff_lt]

/-- C6 witness: the bounds hold at the (reachable) initial state, and both
clamping equations evaluate there. -/
theorem navigation_clamp_witness :
    -1 ≤ initialState.historyIndex
    ∧ initialState.historyIndex ≤ ((initialState.historyEntries.length : Int) - 1) :=
  (navigation_clamp initialState).2.2 Reachable.init

/-- `List.isPrefixOf` decides the prefix relation. -/
theorem isPrefixOf_iff {l₁ l₂ : List Char} :
    l₁.isPrefixOf l₂ = true ↔ l₁ <+: l₂ :=
  List.isPrefixOf_iff_prefix

/-- A lexicographically later list is never a prefix of an earlier one. -/
theorem not_lt_of_pre {l₁ l₂ : List Char} (h : l₁ <+: l₂) :
    ¬ List.Lex (· < ·) l₂ l₁ := by
  induction l₁ generalizing l₂ with
  | nil => intro hlt; cases hlt
  | cons a as ih =>
    rcases h with ⟨t, rfl⟩
    intro hlt
    cases hlt with
    | cons h2 => exact ih ⟨t, rfl⟩ h2
    | rel h2 => exact lt_irrefl a h2

/-- A string is lexicographically at most any string it is a prefix of. -/
theorem le_of_startsWith {s t : String} (h : jsStartsWith s t = true) :
    t ≤ s := by
  rw [String.le_iff_toList_le]
  refine le_of_not_lt (not_lt_of_pre ?_)
  exact isPrefixOf_iff.mp (by simpa [jsStartsWith] using h)

/-- Inserting into a list is a permutation of consing. -/
theorem insertSorted_perm (x : String) (l : List String) :
    List.Perm (insertSorted x l) (x :: l) := by
  induction l with
  | nil => exact List.Perm.refl _
  | cons y ys ih =>
    unfold insertSorted
    split
    · exact List.Perm.refl _
    · exact (List.Perm.cons y ih).trans (List.Perm.swap x y ys)

/-- The modelled JavaScript sort permutes its input. -/
theorem sortStrings_perm (l : List String) : List.Perm (sortStrings l) l := by
  induction l with
  | nil => exact List.Perm.refl _
  | cons x xs ih =>
    exact (insertSorted_perm x (sortStrings xs)).trans (List.Perm.cons x ih)

/-- Insertion preserves ascending order. -/
theorem insertSorted_sorted (x : String) {l : List String}
    (h : l.Sorted (· ≤ ·)) : (insertSorted x l).Sorted (· ≤ ·) := by
  induction l with
  | nil => simp [insertSorted]
  | cons y ys ih =>
    rw [List.sorted_cons] at h
    unfold insertSorted
    split
    · next hxy =>
      rw [List.sorted_cons]
      refine ⟨fun b hb => ?_, List.sorted_cons.mpr h⟩
      rcases List.mem_cons.mp hb with rfl | hb
      · exact hxy
      · exact le_trans hxy (h.1 b hb)
    · next hxy =>
      rw [List.sorted_cons]
      refine ⟨fun b hb => ?_, ih h.2⟩
      rcases List.mem_cons.mp ((insertSorted_perm x ys).mem_iff.mp hb) with rfl | hb2
      · exact le_of_not_le hxy
      · exact h.1 b hb2

/-- The modelled JavaScript sort returns an ascending list. -/
theorem sortStrings_sorted (l : List String) :
    (sortStrings l).Sorted (· ≤ ·) := by
  induction l with
  | nil => simp [sortStrings]
  | cons x xs ih => exact insertSorted_sorted x ih

/-- On an ascending list, `find?` returns a minimum among the elements
satisfying the predicate. -/
theorem find?_sorted_min {p : String → Bool} {l : List String} {c : String}
    (hs : l.Sorted (· ≤ ·)) (hf : l.find? p = some c) :
    ∀ x ∈ l, p x = true → c ≤ x := by
  induction l with
  | nil => simp at hf
  | cons a as ih =>
    rw [List.sorted_cons] at hs
    by_cases hpa : p a = true
    · rw [List.find?_cons_of_pos _ hpa] at hf
      cases hf
      intro x hx _
      rcases List.mem_cons.mp hx with rfl | hx
      · exact le_refl _
      · exact hs.1 x hx
    · rw [List.find?_cons_of_neg _ (by simpa using hpa)] at hf
      intro x hx hpx
      rcases List.mem_cons.mp hx with rfl | hx
      · exact absurd hpx hpa
      · exact ih hs.2 hf x hx hpx

/-- On a non-empty trimmed input the suggestion is whatever `find?` returns
on the sorted vocabulary (or `""` on no match). -/
theorem suggestion_eq (commands : List CommandDefinition) (inputText : String)
    (hin : jsTrim inputText ≠ "") :
    suggestion commands inputText =
      match (suggestionsList commands).find?
          (fun x => jsStartsWith x (jsTrim inputText)) with
      | none => ""
      | some c => c := by
  simp only [suggestion]
  rw [if_neg hin]

/-- C3: the suggestion is empty on empty trimmed input and when no
vocabulary candidate has the trimmed input as a prefix; when a matching
candidate exists, the suggestion is a matching candidate that is
lexicographically least among all matching ones; and a trimmed input that
is itself a vocabulary candidate is its own suggestion. -/
theorem suggestion_contract (commands : List CommandDefinition)
    (inputText : String) :
    (jsTrim inputText = "" → suggestion commands inputText = "")
    ∧ ((∀ c ∈ vocabulary commands, jsStartsWith c (jsTrim inputText) = false) →
        suggestion commands inputText = "")
    ∧ (jsTrim inputText ≠ "" →
        ∀ c ∈ vocabulary commands, jsStartsWith c (jsTrim inputText) = true →
          suggestion commands inputText ∈ vocabulary commands
          ∧ jsStartsWith (suggestion commands inputText) (jsTrim inputText) = true
          ∧ ∀ d ∈ vocabulary commands, jsStartsWith d (jsTrim inputText) = true →
              suggestion commands inputText ≤ d)
    ∧ (jsTrim inputText ∈ vocabulary commands →
        suggestion commands inputText = jsTrim inputText) := by
  have hperm := sortStrings_perm (vocabulary commands)
  have hsorted := sortStrings_sorted (vocabulary commands)
  by_cases hin : jsTrim inputText = ""
  · refine ⟨fun _ => by simp [suggestion, hin], fun _ => by simp [suggestion, hin],
      fun h => absurd hin h, fun hmem => ?_⟩
    rw [hin]
    simp [suggestion, hin]
  · have main : ∀ c ∈ vocabulary commands, jsStartsWith c (jsTrim inputText) = true →
        suggestion commands inputText ∈ vocabulary commands
        ∧ jsStartsWith (suggestion commands inputText) (jsTrim inputText) = true
        ∧ ∀ d ∈ vocabulary commands, jsStartsWith d (jsTrim inputText) = true →
            suggestion commands inputText ≤ d := by
      intro c hc hcp
      rcases hfind : (suggestionsList commands).find?
          (fun x => jsStartsWith x (jsTrim inputText)) with _ | c₀
      · exact absurd hcp
          (by simpa using List.find?_eq_none.mp hfind c (hperm.mem_iff.mpr hc))
      · have hsug : suggestion commands inputText = c₀ := by
          rw [suggestion_eq commands inputText hin, hfind]
        rw [hsug]
        refine ⟨hperm.mem_iff.mp (List.mem_of_find?_eq_some hfind),
          by simpa using List.find?_some hfind, fun d hd hdp => ?_⟩
        exact find?_sorted_min hsorted hfind d (hperm.mem_iff.mpr hd) hdp
    refine ⟨fun h => absurd h hin, fun hall => ?_, fun _ => main, fun hmem => ?_⟩
    · have hnone : (suggestionsList commands).find?
          (fun x => jsStartsWith x (jsTrim inputText)) = none := by
        refine List.find?_eq_none.mpr fun x hx => ?_
        simp [hall x (hperm.mem_iff.mp hx)]
      rw [suggestion_eq commands inputText hin, hnone]
    · have hstart : jsStartsWith (jsTrim inputText) (jsTrim inputText) = true := by
        rw [jsStartsWith]
        exact isPrefixOf_iff.mpr (List.prefix_refl _)
      obtain ⟨_, hsw, hmin⟩ := main (jsTrim inputText) hmem hstart
      exact le_antisymm (hmin (jsTrim inputText) hmem hstart) (le_of_startsWith hsw)

/-- C3 witness: with commands "dfg" and "abc" (the latter declaring
argument "x"), the input "abc" is itself a vocabulary candidate, so the
suggestion equals it. -/
theorem suggestion_contract_witness :
    suggestion demoCommands "abc" = jsTrim "abc" :=
  (suggestion_contract demoCommands "abc").2.2.2 (by decide)

/-- `split(" ")` never yields the empty segment list. -/
theorem splitOnSpaceChars_ne_nil (cs : List Char) :
    splitOnSpaceChars cs ≠ [] := by
  induction cs with
  | nil => simp [splitOnSpaceChars]
  | cons c cs ih =>
    unfold splitOnSpaceChars
    split
    · simp
    · split <;> simp

/-- Joining the segments of `split(" ")` back with single spaces restores
the original characters. -/
theorem joinSpace_split (cs : List Char) :
    joinSpace (splitOnSpaceChars cs) = cs := by
  induction cs with
  | nil => rfl
  | cons c cs ih =>
    unfold splitOnSpaceChars
    split
    · next hc =>
      subst hc
      rcases h : splitOnSpaceChars cs with _ | ⟨t, ts⟩
      · exact absurd h (splitOnSpaceChars_ne_nil cs)
      · rw [h] at ih
        simp [joinSpace, ih]
    · next hc =>
      rcases h : splitOnSpaceChars cs with _ | ⟨t, ts⟩
      · exact absurd h (splitOnSpaceChars_ne_nil cs)
      · rw [h] at ih
        cases ts with
        | nil => simpa [joinSpace] using congrArg (c :: ·) ih
        | cons t2 ts2 => simpa [joinSpace] using congrArg (c :: ·) ih

/-- No segment produced by `split(" ")` contains a space. -/
theorem splitOnSpaceChars_no_space (cs : List Char) :
    ∀ t ∈ splitOnSpaceChars cs, ' ' ∉ t := by
  induction cs with
  | nil =>
    intro t ht
    simp [splitOnSpaceChars] at ht
    subst ht
    simp
  | cons c cs ih =>
    intro t ht
    unfold splitOnSpaceChars at ht
    by_cases hc : c = ' '
    · rw [if_pos hc] at ht
      rcases List.mem_cons.mp ht with rfl | ht2
      · simp
      · exact ih t ht2
    · rw [if_neg hc] at ht
      rcases h : splitOnSpaceChars cs with _ | ⟨t0, ts⟩
      · exact absurd h (splitOnSpaceChars_ne_nil cs)
      · rw [h] at ht
        rcases List.mem_cons.mp ht with rfl | ht2
        · intro hmem
          rcases List.mem_cons.mp hmem with h1 | h2
          · exact hc h1.symm
          · exact ih t0 (h ▸ List.mem_cons_self t0 ts) h2
        · exact ih t (h ▸ List.mem_cons_of_mem t0 ht2)

/-- Reading back the character lists of packed strings is the identity. -/
theorem map_toList_mk :
    ∀ ls : List (List Char),
      (ls.map (fun cs => String.mk cs)).map String.toList = ls
  | [] => rfl
  | a :: as => by
      simp only [List.map_cons]
      rw [map_toList_mk as]
      rfl

/-- C8 counterexample: the trimmed input "a  b" (two spaces) parses to
command "a" with argument tokens ["", "b"]: the doubled space yields an
empty argument token, so runs of whitespace do not act as a single
separator. -/
theorem parseInput_cex :
    parseInput (jsTrim "a  b") = ("a", ["", "b"])
    ∧ "" ∈ (parseInput (jsTrim "a  b")).2 := by
  constructor <;> decide

/-- C8 amended: `execute` parses the trimmed input by cutting it at every
single space character: the command token is the text before the first
space, the argument tokens are the segments between consecutive spaces
(possibly empty), no token contains a space, joining all tokens back with
single spaces restores the input, and the matched handler receives exactly
that argument sequence. -/
theorem parseInput_amended (text : String) :
    joinSpace (((parseInput text).1 :: (parseInput text).2).map String.toList)
      = text.toList
    ∧ (∀ tok ∈ (parseInput text).1 :: (parseInput text).2, ' ' ∉ tok.toList)
    ∧ (∀ (commands : List CommandDefinition) (s : TerminalState)
        (cd : CommandDefinition),
        s.isRunning = false → jsTrim s.inputText ≠ "" →
        commands.find? (fun d => d.name = (parseInput (jsTrim s.inputText)).1) = some cd →
        (execute commands s).invoked
          = some (cd.name, (parseInput (jsTrim s.inputText)).2)) := by
  have hmk : ∀ l : List Char, (String.mk l).toList = l := fun l => rfl
  obtain ⟨t, ts, h⟩ : ∃ t ts, splitOnSpaceChars text.toList = t :: ts := by
    rcases hh : splitOnSpaceChars text.toList with _ | ⟨t, ts⟩
    · exact absurd hh (splitOnSpaceChars_ne_nil text.toList)
    · exact ⟨t, ts, rfl⟩
  have hp : parseInput text = (String.mk t, ts.map (fun cs => String.mk cs)) := by
    unfold parseInput jsSplitOnSpace
    rw [h, List.map_cons]
  refine ⟨?_, ?_, ?_⟩
  · have hj := joinSpace_split text.toList
    rw [h] at hj
    rw [hp]
    show joinSpace (((t :: ts).map (fun cs => String.mk cs)).map String.toList)
      = text.toList
    rw [map_toList_mk]
    exact hj
  · intro tok htok
    have hns := splitOnSpaceChars_no_space text.toList
    rw [h] at hns
    rw [hp] at htok
    simp at htok
    rcases htok with rfl | ⟨u, hu, rfl⟩
    · simpa [hmk] using hns t (List.mem_cons_self t ts)
    · simpa [hmk] using hns u (List.mem_cons_of_mem t hu)
  · intro commands s cd hrun hinn hfind
    simp [execute, executePre, hrun, hinn, hfind]

/-- C8 amended witness: submitting "cat  x" (two spaces) dispatches the
"cat" handler with argument tokens ["", "x"]. -/
theorem parseInput_amended_witness :
    (execute [catCommand] demoDoubleSpaceState).invoked
      = some ("cat", ["", "x"]) := by
  have h := (parseInput_amended (jsTrim demoDoubleSpaceState.inputText)).2.2
    [catCommand] demoDoubleSpaceState catCommand rfl (by decide) rfl
  exact h.trans (by decide)

end Terminal
